import Mathlib

/-!
Verification of the RealPic_lite watermarking core (RobustWatermark,
Steganography and their helpers) against its specification.

The JavaScript source is shallowly embedded: byte buffers become `List ℕ`,
JS 32-bit integer operations become explicit arithmetic over `ℤ`/`ℕ` with
`% 2^32` / `% 2^31` where overflow matters, JS `Number` (IEEE-754 double)
products that can exceed 2^53 go through an explicit round-to-nearest-even
model (`roundDouble`), and exact rational arithmetic (`ℚ`) stands in for
double arithmetic at the places where the double result is provably exact
or where only the order of the computed quantities matters.
-/

namespace RealPic

/-- JS `ToInt32`: reduce an integer to the signed 32-bit range. -/
def toInt32 (n : ℤ) : ℤ := (n + 2 ^ 31) % 2 ^ 32 - 2 ^ 31

/-- Round-to-nearest, ties-to-even, at 53 significant bits: the value of the
IEEE-754 double nearest to the natural number `n`.  Integers below `2^53`
are exactly representable and are returned unchanged. -/
def roundDouble (n : ℕ) : ℕ :=
  if n < 2 ^ 53 then n
  else
    let k := n.log2 - 52
    let q := n / 2 ^ k
    let r := n % 2 ^ k
    if r < 2 ^ (k - 1) then q * 2 ^ k
    else if 2 ^ (k - 1) < r then (q + 1) * 2 ^ k
    else if q % 2 = 0 then q * 2 ^ k else (q + 1) * 2 ^ k

/-- JS `array.slice(0, e)` where `e` may be negative (counted from the end). -/
def jsSliceTo (l : List ℕ) (e : ℤ) : List ℕ :=
  if e < 0 then l.take (((l.length : ℤ) + e).toNat) else l.take e.toNat

/-- Swap two positions of a list (identity when either index is out of range). -/
def listSwap {α : Type} (l : List α) (i j : ℕ) : List α :=
  match l.get? i, l.get? j with
  | some a, some b => (l.set i b).set j a
  | _, _ => l

/-- Big-endian binary digits to a natural number (JS `parseInt(bits, 2)` on a
non-empty all-0/1 string). -/
def binToNat (bits : List ℕ) : ℕ :=
  bits.foldl (fun acc b => acc * 2 + b) 0

/-! ### GaloisField (GF(256), primitive polynomial 0x11D)

Mirrors the `GaloisField` class: `expTable` is built by repeated doubling
with conditional reduction, `logTable` by recording the index of each
produced value, exactly in the order the constructor writes them. -/

/-- The doubling iteration of the `GaloisField` constructor: starting from
`x`, produce `n` successive values of `x` (each step `x <<= 1; if (x >= 256)
x ^= 0x11D`). -/
def gfBuild : ℕ → ℕ → List ℕ
  | 0, _ => []
  | n + 1, x =>
    x :: gfBuild n (if 256 ≤ x * 2 then x * 2 ^^^ 0x11D else x * 2)

/-- The first 255 entries of `expTable` (the full multiplicative cycle). -/
def expTable255 : List ℕ := gfBuild 255 1

/-- The 512-entry `expTable`: the 255-cycle, then `expTable[i] =
expTable[i-255]` for `i = 255..511`. -/
def expTable : List ℕ := expTable255 ++ expTable255 ++ expTable255.take 2

/-- `logTable`, built exactly as the constructor does: a 256-entry zero table
with `logTable[expTable[i]] = i` written for `i = 0..254`. -/
def logTable : List ℕ :=
  (List.range 255).foldl (fun t i => t.set (expTable255.getD i 0) i)
    (List.replicate 256 0)

/-- `GaloisField.multiply`. -/
def gfMul (a b : ℕ) : ℕ :=
  if a = 0 ∨ b = 0 then 0
  else expTable.getD (logTable.getD a 0 + logTable.getD b 0) 0

/-! ### ReedSolomon -/

/-- `ReedSolomon.createGenerator`: the generator polynomial of degree `nsym`,
built as the product of the factors `[1, expTable[i]]` with XOR-convolution,
exactly as the nested loops do. -/
def createGenerator (nsym : ℕ) : List ℕ :=
  (List.range nsym).foldl
    (fun g i =>
      let factor := [1, expTable.getD i 0]
      (List.range g.length).foldl
        (fun acc j =>
          (List.range factor.length).foldl
            (fun acc2 k =>
              acc2.set (j + k)
                (acc2.getD (j + k) 0 ^^^ gfMul (g.getD j 0) (factor.getD k 0)))
            acc)
        (List.replicate (g.length + 1) 0))
    [1]

/-- `Uint8Array.set(src)` at offset 0: overwrite the first `src.length`
entries of `dst` with `src`. -/
def jsTypedSet (dst src : List ℕ) : List ℕ := src ++ dst.drop src.length

/-- The polynomial-division loop of `ReedSolomon.encode` (everything between
the first `encoded.set(data)` — the buffer is `data` padded with `nsym`
zeros — and the final one). -/
def rsDivisionLoop (nsym : ℕ) (gen : List ℕ) (data : List ℕ) : List ℕ :=
  (List.range data.length).foldl
    (fun enc i =>
      let coef := enc.getD i 0
      if coef ≠ 0 then
        (List.range gen.length).foldl
          (fun e j => e.set (i + j) (e.getD (i + j) 0 ^^^ gfMul (gen.getD j 0) coef))
          enc
      else enc)
    (data ++ List.replicate nsym 0)

/-- `ReedSolomon.encode`: allocate `data.length + nsym` bytes, copy `data`
in, run the division loop, then restore `data` verbatim with the final
`encoded.set(data)`. -/
def rsEncode (nsym : ℕ) (data : List ℕ) : List ℕ :=
  let gen := createGenerator nsym
  jsTypedSet (rsDivisionLoop nsym gen data) data

/-- The parity tail produced by `rsEncode` (`nsym` bytes after the data). -/
def rsParity (nsym : ℕ) (data : List ℕ) : List ℕ :=
  (rsDivisionLoop nsym (createGenerator nsym) data).drop data.length

/-- `ReedSolomon.calculateSyndromes`. -/
def calculateSyndromes (nsym : ℕ) (data : List ℕ) : List ℕ :=
  (List.range nsym).map (fun i =>
    data.foldl (fun syn d => gfMul syn (expTable.getD i 0) ^^^ d) 0)

/-- `ReedSolomon.decode`: compute syndromes; both the all-zero branch and the
"possibly corrupted" branch return `data.slice(0, data.length - nsym)`. -/
def rsDecode (nsym : ℕ) (data : List ℕ) : List ℕ :=
  let syndromes := calculateSyndromes nsym data
  if syndromes.all (· = 0) then jsSliceTo data ((data.length : ℤ) - nsym)
  else jsSliceTo data ((data.length : ℤ) - nsym)

/-- `ReedSolomon.decode` seen as a fallible computation: the method body
contains no `throw` site (table lookups, XOR and `slice` are all total), so
its `Except` translation always returns `Except.ok`.  The `try/catch` at the
call site in `RobustWatermark.decode` is modelled in `decodeFromBits`. -/
def rsDecodeE (nsym : ℕ) (data : List ℕ) : Except String (List ℕ) :=
  Except.ok (rsDecode nsym data)

/-! ### SeededRNG

`hashString` works on JS 32-bit signed integers; `next()` works on JS
doubles.  For `next()`, the product `seed * 1103515245` can exceed `2^53`,
so the double multiplication and the following addition are modelled with
`roundDouble`; `& 0x7FFFFFFF` on the (integer-valued) double is its value
mod `2^31`.  The final division `seed / 0x7FFFFFFF` is modelled as the
exact rational: the numerator is below `2^31`, so the double quotient and
the exact quotient lie strictly on the same side of every threshold used
by the program (0, 0.5, 1 and the integer cut-offs of `nextInt`) except
for `nextInt` boundary cases that affect neither claim proved here. -/

/-- `SeededRNG.hashString` on a list of UTF-16 code units:
`hash = ((hash << 5) - hash) + char` followed by `hash = hash & hash`
(both are `ToInt32` reductions). -/
def hashString (codes : List ℕ) : ℤ :=
  codes.foldl (fun h c => toInt32 (toInt32 (h * 32) - h + c)) 0

/-- The state of a `SeededRNG` (the 31-bit non-negative `seed`). -/
structure JsRng where
  seed : ℕ
deriving Repr, DecidableEq

/-- `new SeededRNG(key)`: seed with `Math.abs(hashString(key))`. -/
def rngInit (key : List ℕ) : JsRng := ⟨(hashString key).natAbs⟩

/-- The seed update of `SeededRNG.next()`:
`(seed * 1103515245 + 12345) & 0x7FFFFFFF` in JS double arithmetic. -/
def nextSeed (s : ℕ) : ℕ :=
  roundDouble (roundDouble (s * 1103515245) + 12345) % 2 ^ 31

/-- `SeededRNG.next()`: update the seed, return `seed / 0x7FFFFFFF`. -/
def JsRng.next (r : JsRng) : ℚ × JsRng :=
  let s := nextSeed r.seed
  ((s : ℚ) / 0x7FFFFFFF, ⟨s⟩)

/-- `SeededRNG.nextInt(min, max)` as used by `shuffle` (with `min = 0`):
`Math.floor(next() * (max - min + 1)) + min`. -/
def JsRng.nextInt (r : JsRng) (min max : ℕ) : ℤ × JsRng :=
  let (v, r') := r.next
  (⌊v * ((max : ℚ) - min + 1)⌋ + min, r')

/-- The Fisher–Yates loop of `SeededRNG.shuffle`, indexed by the loop
variable `i` (descending from `length - 1`; the loop body swaps positions
`i` and `nextInt(0, i)`). -/
def shuffleGo {α : Type} : ℕ → List α → JsRng → List α × JsRng
  | 0, l, r => (l, r)
  | i + 1, l, r =>
    let (j, r') := r.nextInt 0 (i + 1)
    shuffleGo i (listSwap l (i + 1) j.toNat) r'

/-- `SeededRNG.shuffle`. -/
def JsRng.shuffle {α : Type} (r : JsRng) (l : List α) : List α × JsRng :=
  shuffleGo (l.length - 1) l r

/-! ### Message framing helpers of RobustWatermark

Strings are represented by their lists of UTF-16 code units (what
`charCodeAt` / `String.fromCharCode` read and write). -/

/-- `CONFIG.MAGIC`. -/
def MAGIC : List ℕ := [1, 0, 1, 0, 1, 1, 0, 0, 1, 1, 0, 1, 0, 1, 0, 1]

/-- `stringToBits`: 16-bit big-endian length, then 16 bits per code unit. -/
def stringToBits (codes : List ℕ) : List ℕ :=
  (List.range 16).map (fun i => codes.length >>> (15 - i) &&& 1) ++
    codes.flatMap (fun c => (List.range 16).map (fun j => c >>> (15 - j) &&& 1))

/-- `bitsToBytes`: pack bits MSB-first into `ceil(length / 8)` bytes; a bit
is set when the source entry is truthy (non-zero). -/
def bitsToBytes (bits : List ℕ) : List ℕ :=
  (List.range bits.length).foldl
    (fun bytes i =>
      if bits.getD i 0 ≠ 0 then
        bytes.set (i / 8) (bytes.getD (i / 8) 0 ||| 1 <<< (7 - i % 8))
      else bytes)
    (List.replicate ((bits.length + 7) / 8) 0)

/-- `bytesToBits`: 8 bits per byte, MSB first. -/
def bytesToBits (bytes : List ℕ) : List ℕ :=
  bytes.flatMap (fun b => (List.range 8).map (fun j => b >>> (7 - j) &&& 1))

/-- One 16-bit big-endian read at bit offset `off` of `bits`, as
`bitsToString` does it (`bits[i] > 0.5` on a 0/1 entry is `1 ≤ bits[i]`). -/
def read16 (bits : List ℕ) (off : ℕ) : ℕ :=
  (List.range 16).foldl
    (fun acc j => acc * 2 + (if 1 ≤ bits.getD (off + j) 0 then 1 else 0)) 0

/-- `bitsToString`: `null` when shorter than 16 bits, when the decoded
length is 0 or above 1000, or when the bits cannot cover the string;
otherwise the code units read 16 bits at a time (codes equal to 0 are
skipped; the `code < 65536` guard is vacuous for a 16-bit read). -/
def bitsToString (bits : List ℕ) : Option (List ℕ) :=
  if bits.length < 16 then none
  else
    let length := read16 bits 0
    if length = 0 ∨ 1000 < length ∨ bits.length < 16 + length * 16 then none
    else
      some ((List.range length).foldl
        (fun str i =>
          let code := read16 bits (16 + i * 16)
          if 0 < code ∧ code < 65536 then str ++ [code] else str)
        [])

/-! ### Steganography (LSB codec)

Pixel buffers are `List ℕ` of RGBA bytes; every fourth byte (alpha) is
skipped by both encode and decode. -/

/-- `Steganography.stringToBinary`: 16 bits per code unit, MSB first
(`toString(2).padStart(16, '0')` on a code unit below 2^16). -/
def stegoStringToBinary (codes : List ℕ) : List ℕ :=
  codes.flatMap (fun c => (List.range 16).map (fun j => c >>> (15 - j) &&& 1))

/-- The bit-writing loop of `Steganography.encode`: walk the bytes at
positions `i, i+1, ...`, skip every byte with `(i + 1) % 4 = 0`, and
replace the LSB of each remaining byte with the next bit until the bits
run out. -/
def stegoWriteGo (i : ℕ) : List ℕ → List ℕ → List ℕ
  | d, [] => d
  | [], _ => []
  | b :: rest, bit :: bits =>
    if (i + 1) % 4 = 0 then b :: stegoWriteGo (i + 1) rest (bit :: bits)
    else (b &&& 0xFE ||| bit) :: stegoWriteGo (i + 1) rest bits

/-- 32-bit big-endian encoding of `n` (`toString(2).padStart(32, '0')`). -/
def pad32 (n : ℕ) : List ℕ :=
  (List.range 32).map (fun i => n >>> (31 - i) &&& 1)

/-- 16-bit big-endian encoding of `n`. -/
def pad16 (n : ℕ) : List ℕ :=
  (List.range 16).map (fun i => n >>> (15 - i) &&& 1)

/-- `Steganography.encode` on a copied buffer: throws (`Except.error`) when
`ceil((48 + 16·len) / 3)` exceeds the pixel count `data.length / 4`,
otherwise writes `magic(0xCAFE) ‖ bit-length(32) ‖ message bits` into the
LSBs of the non-alpha bytes. -/
def stegoEncode (data : List ℕ) (codes : List ℕ) : Except String (List ℕ) :=
  let messageBinary := stegoStringToBinary codes
  let totalBitsNeeded := 16 + 32 + messageBinary.length
  if ((⌈(totalBitsNeeded : ℚ) / 3⌉ : ℤ) : ℚ) > (data.length : ℚ) / 4 then
    Except.error "Message too long for image"
  else
    let fullBinary := pad16 0xCAFE ++ pad32 messageBinary.length ++ messageBinary
    Except.ok (stegoWriteGo 0 data fullBinary)

/-- The header-reading loop of `Steganography.decode`: collect the LSBs of
the non-alpha bytes until `need` bits are read. -/
def stegoReadGo (i need : ℕ) : List ℕ → List ℕ
  | [] => []
  | b :: rest =>
    if need = 0 then []
    else if (i + 1) % 4 = 0 then stegoReadGo (i + 1) need rest
    else (b &&& 1) :: stegoReadGo (i + 1) (need - 1) rest

/-- The message-reading loop of `Steganography.decode`.  `bi` is the running
`bitIndex` — crucially it is the same variable the header loop already
advanced to 48, and it is post-incremented on every non-alpha byte whether
or not the `bitIndex <= headerBits - 1` skip fires. -/
def stegoReadMsgGo (i bi need : ℕ) : List ℕ → List ℕ
  | [] => []
  | b :: rest =>
    if need = 0 then []
    else if (i + 1) % 4 = 0 then stegoReadMsgGo (i + 1) bi need rest
    else if bi ≤ 48 - 1 then stegoReadMsgGo (i + 1) (bi + 1) need rest
    else (b &&& 1) :: stegoReadMsgGo (i + 1) (bi + 1) (need - 1) rest

/-- The 16-bit chunking loop of `Steganography.binaryToString`, with an
explicit step bound (each step consumes 16 bits, so `bits.length` steps
always suffice): parse 16 bits at a time (the final chunk may be shorter),
keeping the code units that are non-zero. -/
def binaryToCodesGo : ℕ → List ℕ → List ℕ
  | _, [] => []
  | 0, _ => []
  | fuel + 1, b :: bs =>
    let c := binToNat ((b :: bs).take 16)
    (if 0 < c then [c] else []) ++ binaryToCodesGo fuel ((b :: bs).drop 16)

/-- `Steganography.binaryToString`. -/
def binaryToCodes (bits : List ℕ) : List ℕ :=
  binaryToCodesGo bits.length bits

/-- `Steganography.decode` (for buffers long enough that the 48 header bits
are all read, which holds whenever `encode` accepted a message): check the
0xCAFE magic, read the 32-bit message bit-length, then run the
message-reading loop with `bitIndex` already at 48. -/
def stegoDecode (data : List ℕ) : Option (List ℕ) :=
  let headerBits := stegoReadGo 0 48 data
  if binToNat (headerBits.take 16) ≠ 0xCAFE then none
  else
    let msgLen := binToNat (headerBits.drop 16)
    if msgLen = 0 ∨ 100000 < msgLen then none
    else some (binaryToCodes (stegoReadMsgGo 0 headerBits.length msgLen data))

/-! ### RobustWatermark.decode — the bit-domain half

The per-block DCT correlation front end of `decode` is floating-point; its
outputs are the 0/1 `extractedBits` and the non-negative
`confidenceScores`.  Everything from the majority vote on is exact bit and
rational arithmetic and is embedded here as `decodeFromBits`, a function of
those two lists.  The thresholds `< 0.7` and `> 0.7` are compared against
`magicMatch / 16`; no sixteenth equals `0.7` (nor the double nearest to
`0.7`), so the exact rational comparison agrees with the double one. -/

/-- The result record of `RobustWatermark.decode`. -/
structure DecodeResult where
  found : Bool
  confidence : ℚ
  message : Option (List ℕ)
deriving Repr, DecidableEq

/-- The confidence-weighted majority vote (`REDUNDANCY = 4`): bit `i` of the
voted stream looks at positions `r * bitsPerCopy + i` for `r = 0..3`. -/
def votedBitsOf (extracted : List Bool) (conf : List ℚ) : List ℕ :=
  let bitsPerCopy := extracted.length / 4
  (List.range bitsPerCopy).map (fun i =>
    let votes := (List.range 4).foldl
      (fun (v : ℚ × ℚ) r =>
        let idx := r * bitsPerCopy + i
        if idx < extracted.length then
          let weight := conf.getD idx 0
          if extracted.getD idx false then (v.1, v.2 + weight)
          else (v.1 + weight, v.2)
        else v)
      (0, 0)
    if votes.1 < votes.2 then 1 else 0)

/-- `magicMatch`: among the first 16 voted bits (fewer when the voted stream
is shorter), how many match `CONFIG.MAGIC`. -/
def magicMatchOf (voted : List ℕ) : ℕ :=
  ((List.range 16).filter
    (fun i => i < voted.length ∧ voted.getD i 0 = MAGIC.getD i 0)).length

/-- `magicConfidence = magicMatch / CONFIG.MAGIC.length`. -/
def magicConfOf (extracted : List Bool) (conf : List ℚ) : ℚ :=
  (magicMatchOf (votedBitsOf extracted conf) : ℚ) / 16

/-- The `nsym` used by `decode` for Reed–Solomon:
`Math.ceil(len * ECC_LEVEL / (1 + ECC_LEVEL))` with `ECC_LEVEL = 0.5`,
i.e. `ceil(len / 3)` (the double computation of `len * 0.5 / 1.5` errs by
far less than the distance from `len / 3` to the nearest other integer, so
its ceiling is the exact one). -/
def decodeNsym (len : ℕ) : ℕ := (len + 2) / 3

/-- `RobustWatermark.decode` from the extracted bits and confidences on:
majority vote, magic check, early `found: false` return, then the
Reed–Solomon strip inside `try`, with the `catch` fallback interpreting the
raw voted bits. -/
def decodeFromBits (extracted : List Bool) (conf : List ℚ) : DecodeResult :=
  let votedBits := votedBitsOf extracted conf
  let magicConfidence := magicConfOf extracted conf
  if magicConfidence < 7 / 10 then
    { found := false, confidence := magicConfidence, message := none }
  else
    let messageBits := votedBits.drop 16
    let messageBytes := bitsToBytes messageBits
    match rsDecodeE (decodeNsym messageBytes.length) messageBytes with
    | Except.ok decodedBytes =>
      { found := true, confidence := magicConfidence
        message := bitsToString (bytesToBits decodedBytes) }
    | Except.error _ =>
      { found := decide ((7 : ℚ) / 10 < magicConfidence)
        confidence := magicConfidence
        message := bitsToString messageBits }

/-! ### RobustWatermark.decode — whole-function skeleton

`decodeM` is `decode` with the one floating-point quantity — the DCT
coefficient `dctBlock[u][v]` of a block — abstracted as an oracle
`coef block posIdx` (`posIdx` indexes `EMBED_POSITIONS`; the coefficient of
a block is a function of the block index and the image, which is fixed).
Everything else (block grid, shuffle, RNG spread signs, correlation sign
and magnitude, voting, magic check, Reed–Solomon, framing) is the exact
embedding of the source. -/

/-- The extraction loop of `decode`: per shuffled block, per embed
position, draw one spread sign from the RNG and correlate it with the
block's coefficient. -/
def extractGo (coef : ℕ → ℕ → ℚ) :
    List ℕ → JsRng → List Bool × List ℚ × JsRng
  | [], r => ([], [], r)
  | block :: rest, r =>
    let inner := (List.range 15).foldl
      (fun (st : List Bool × List ℚ × JsRng) posIdx =>
        let c := coef block posIdx
        let (v, r') := st.2.2.next
        let spread : ℚ := if 1 / 2 < v then 1 else -1
        let correlation := c * spread
        (st.1 ++ [decide (0 < correlation)], st.2.1 ++ [|correlation|], r'))
      ([], [], r)
    let (restBits, restConf, rFinal) := extractGo coef rest inner.2.2
    (inner.1 ++ restBits, inner.2.1 ++ restConf, rFinal)

/-- `RobustWatermark.decode` with the DCT coefficients abstracted:
seed the RNG from the key, build the `floor(w/8) × floor(h/8)` block grid,
shuffle the block order, extract, then `decodeFromBits`. -/
def decodeM (coef : ℕ → ℕ → ℚ) (key : List ℕ) (width height : ℕ) :
    DecodeResult :=
  let rng := rngInit key
  let blockCols := width / 8
  let blockRows := height / 8
  let totalBlocks := blockCols * blockRows
  let (shuffledBlocks, rng1) := rng.shuffle (List.range totalBlocks)
  let (extractedBits, confidenceScores, _) := extractGo coef shuffledBlocks rng1
  decodeFromBits extractedBits confidenceScores

/-! ### The RNG consumption of encode and decode (claim C4)

`encode` and `decode` touch the shared `SeededRNG` in exactly two places:
the block-order shuffle and the one `next()` call per coefficient that
yields the ±1 spread value.  Neither the DCT nor the pixel writes read the
generator, so the spread values an encode or decode run consumes are a pure
function of the key, the block grid and (for encode) the encoded bit
length; the functions below are that projection of the two source loops. -/

/-- `n` consecutive `next()` draws, each mapped to its ±1 spread value
(`rng.next() > 0.5 ? 1 : -1`). -/
def drawSpreads : ℕ → JsRng → List ℚ × JsRng
  | 0, r => ([], r)
  | n + 1, r =>
    let (v, r') := r.next
    let (vs, r'') := drawSpreads n r'
    ((if 1 / 2 < v then (1 : ℚ) else -1) :: vs, r'')

/-- The spread draws of the embedding loop of `encode`: one block per step
(15 draws), stopping when the blocks run out or `redundancyCount` reaches
`REDUNDANCY = 4`; `bitIndex` grows by 15 per block and resets (bumping
`redundancyCount`) when it reaches the encoded bit length `L`. -/
def encodeSpreadGo (L : ℕ) : ℕ → JsRng → ℕ → ℕ → List ℚ
  | 0, _, _, _ => []
  | fuel + 1, r, bitIndex, red =>
    if 4 ≤ red then []
    else
      let (vs, r') := drawSpreads 15 r
      if L ≤ bitIndex + 15 then vs ++ encodeSpreadGo L fuel r' 0 (red + 1)
      else vs ++ encodeSpreadGo L fuel r' (bitIndex + 15) red

/-- The spread draws of the extraction loop of `decode`: 15 draws for every
block, no early exit. -/
def decodeSpreadGo : ℕ → JsRng → List ℚ
  | 0, _ => []
  | fuel + 1, r =>
    let (vs, r') := drawSpreads 15 r
    vs ++ decodeSpreadGo fuel r'

/-- The shuffled block order `encode` computes (its lines 419–420). -/
def encodeShuffledBlocks (key : List ℕ) (width height : ℕ) : List ℕ × JsRng :=
  (rngInit key).shuffle (List.range (width / 8 * (height / 8)))

/-- The shuffled block order `decode` computes (its lines 534–535 — the
same expressions from the same freshly seeded generator). -/
def decodeShuffledBlocks (key : List ℕ) (width height : ℕ) : List ℕ × JsRng :=
  (rngInit key).shuffle (List.range (width / 8 * (height / 8)))

/-- The encoded bit length `encode` works with: frame the message
(`MAGIC ‖ stringToBits`), pack to bytes, Reed–Solomon-encode with
`nsym = ceil(byteLen * 0.5)`, unpack to bits. -/
def encodedBitsLen (msg : List ℕ) : ℕ :=
  let messageBytes := bitsToBytes (MAGIC ++ stringToBits msg)
  (bytesToBits (rsEncode ((messageBytes.length + 1) / 2) messageBytes)).length

/-- The ±1 spread values `encode` consumes, in order: shuffle first, then
the embedding loop. -/
def encodeSpreads (key msg : List ℕ) (width height : ℕ) : List ℚ :=
  let (shuffledBlocks, rng1) := encodeShuffledBlocks key width height
  encodeSpreadGo (encodedBitsLen msg) shuffledBlocks.length rng1 0 0

/-- The ±1 spread values `decode` consumes, in order: shuffle first, then
the extraction loop. -/
def decodeSpreads (key : List ℕ) (width height : ℕ) : List ℚ :=
  let (shuffledBlocks, rng1) := decodeShuffledBlocks key width height
  decodeSpreadGo shuffledBlocks.length rng1

/-! ## Helper lemmas -/

lemma roundDouble_id {n : ℕ} (h : n < 2 ^ 53) : roundDouble n = n := by
  unfold roundDouble; rw [if_pos h]

lemma log2_ge {n : ℕ} (h : 2 ^ 53 ≤ n) : 53 ≤ n.log2 :=
  (Nat.le_log2 (by positivity)).2 h

/-- Doubles at or above `2^53` have an even integer value: the rounded
result is a multiple of the binade's unit `2^(log2 n - 52) ≥ 2`. -/
lemma roundDouble_even {n : ℕ} (h : 2 ^ 53 ≤ n) : 2 ∣ roundDouble n := by
  unfold roundDouble
  rw [if_neg (not_lt.2 h)]
  have hk : 1 ≤ n.log2 - 52 := by have := log2_ge h; omega
  have h2k : 2 ∣ 2 ^ (n.log2 - 52) := dvd_pow_self 2 (by omega)
  dsimp only
  split
  · exact Dvd.dvd.mul_left h2k _
  · split
    · exact Dvd.dvd.mul_left h2k _
    · split
      · exact Dvd.dvd.mul_left h2k _
      · exact Dvd.dvd.mul_left h2k _

/-- Rounding does not drop a value of at least `2^53` below `2^53`. -/
lemma roundDouble_ge {n : ℕ} (h : 2 ^ 53 ≤ n) : 2 ^ 53 ≤ roundDouble n := by
  unfold roundDouble
  rw [if_neg (not_lt.2 h)]
  dsimp only
  have hlog := log2_ge h
  have hself : 2 ^ n.log2 ≤ n := Nat.log2_self_le (by positivity)
  have hsplit : (2 : ℕ) ^ n.log2 = 2 ^ 52 * 2 ^ (n.log2 - 52) := by
    rw [← pow_add]; congr 1; omega
  have hq : 2 ^ 52 ≤ n / 2 ^ (n.log2 - 52) := by
    rw [Nat.le_div_iff_mul_le (by positivity)]
    calc 2 ^ 52 * 2 ^ (n.log2 - 52) = 2 ^ n.log2 := hsplit.symm
    _ ≤ n := hself
  have hbase : 2 ^ 53 ≤ n / 2 ^ (n.log2 - 52) * 2 ^ (n.log2 - 52) := by
    calc (2 : ℕ) ^ 53 = 2 ^ 52 * 2 ^ 1 := by norm_num
    _ ≤ 2 ^ 52 * 2 ^ (n.log2 - 52) := by
        have h1 : (2 : ℕ) ^ 1 ≤ 2 ^ (n.log2 - 52) :=
          Nat.pow_le_pow_right (by norm_num) (by omega)
        exact Nat.mul_le_mul_left _ h1
    _ ≤ n / 2 ^ (n.log2 - 52) * 2 ^ (n.log2 - 52) := Nat.mul_le_mul_right _ hq
  split
  · exact hbase
  · split
    · exact le_trans hbase (Nat.mul_le_mul_right _ (Nat.le_succ _))
    · split
      · exact hbase
      · exact le_trans hbase (Nat.mul_le_mul_right _ (Nat.le_succ _))

/-- When the LCG step stays below `2^53` (hence is computed exactly), the
seed is at most `8162278`. -/
lemma seed_small_bound {s : ℕ} (hsmall : s * 1103515245 + 12345 < 2 ^ 53) :
    s ≤ 8162278 := by
  omega

/-- The only residue that the exact LCG step maps to the all-ones state is
`230538014` (the modular inverse of the multiplier applied to the target),
which exceeds the exactness bound: small seeds never reach all-ones. -/
lemma small_mod_ne {s : ℕ} (hs : s ≤ 8162278) :
    (s * 1103515245 + 12345) % 2 ^ 31 ≠ 2 ^ 31 - 1 := by
  intro hcontra
  have h1 : s * 1103515245 + 12345 ≡ 2 ^ 31 - 1 [MOD 2 ^ 31] := by
    unfold Nat.ModEq
    rw [hcontra, Nat.mod_eq_of_lt (by norm_num)]
  have h2 : 1857678181 * (s * 1103515245 + 12345) ≡
      1857678181 * (2 ^ 31 - 1) [MOD 2 ^ 31] := h1.mul_left _
  have h3 : 1857678181 * (s * 1103515245 + 12345)
      = 1857678181 * 1103515245 * s + 1857678181 * 12345 := by ring
  have h4 : 1857678181 * 1103515245 * s ≡ 1 * s [MOD 2 ^ 31] :=
    Nat.ModEq.mul_right s (by unfold Nat.ModEq; norm_num)
  have h5 : s + 1857678181 * 12345 ≡ 1857678181 * (2 ^ 31 - 1) [MOD 2 ^ 31] := by
    calc s + 1857678181 * 12345 = 1 * s + 1857678181 * 12345 := by ring
    _ ≡ 1857678181 * 1103515245 * s + 1857678181 * 12345 [MOD 2 ^ 31] :=
        (h4.symm.add_right _)
    _ = 1857678181 * (s * 1103515245 + 12345) := h3.symm
    _ ≡ 1857678181 * (2 ^ 31 - 1) [MOD 2 ^ 31] := h2
  have h6 : (230538014 : ℕ) + 1857678181 * 12345 ≡
      1857678181 * (2 ^ 31 - 1) [MOD 2 ^ 31] := by
    unfold Nat.ModEq
    norm_num
  have h7 : s ≡ 230538014 [MOD 2 ^ 31] := (h5.trans h6.symm).add_right_cancel' _
  have h8 : s % 2 ^ 31 = 230538014 % 2 ^ 31 := h7
  rw [Nat.mod_eq_of_lt (lt_of_le_of_lt hs (by norm_num)),
    Nat.mod_eq_of_lt (by norm_num)] at h8
  subst h8
  exact absurd hs (by norm_num)

lemma even_mod_ne {q : ℕ} (h : 2 ∣ q) : q % 2 ^ 31 ≠ 2 ^ 31 - 1 := by
  have h1 : 2 ∣ q % 2 ^ 31 := (Nat.dvd_mod_iff (by norm_num)).2 h
  omega

/-- The post-step seed is never the all-ones state `0x7FFFFFFF`. -/
lemma nextSeed_ne (s : ℕ) : nextSeed s ≠ 2 ^ 31 - 1 := by
  unfold nextSeed
  by_cases hsmall : s * 1103515245 + 12345 < 2 ^ 53
  · rw [@roundDouble_id (s * 1103515245) (by omega),
      @roundDouble_id (s * 1103515245 + 12345) hsmall]
    exact small_mod_ne (seed_small_bound hsmall)
  · push_neg at hsmall
    refine even_mod_ne ?_
    by_cases hm : s * 1103515245 < 2 ^ 53
    · rw [roundDouble_id hm]
      exact roundDouble_even hsmall
    · push_neg at hm
      have hp := roundDouble_ge hm
      exact roundDouble_even (by omega)

lemma nextSeed_le (s : ℕ) : nextSeed s ≤ 2 ^ 31 - 2 := by
  have h1 : nextSeed s < 2 ^ 31 := Nat.mod_lt _ (by norm_num)
  have h2 := nextSeed_ne s
  omega

lemma take_append_length {α : Type} (l m : List α) (n : ℕ) :
    (l ++ m).take (l.length + n) = l ++ m.take n := by
  simp [List.take_append]

lemma getD_of_take {α : Type} [Inhabited α] (l : List α) (n k : ℕ) (d : α)
    (h : k < n) : (l.take n).getD k d = l.getD k d := by
  simp [List.getD, List.getElem?_take, h]

/-- The spread draws of the embedding loop are an initial segment of the
spread draws of the extraction loop started from the same generator state:
each visited block consumes the same 15 draws on both sides, and encode
merely stops earlier. -/
lemma encodeSpreadGo_take (L : ℕ) :
    ∀ (fuel : ℕ) (r : JsRng) (bi red : ℕ),
      encodeSpreadGo L fuel r bi red =
        (decodeSpreadGo fuel r).take (encodeSpreadGo L fuel r bi red).length := by
  intro fuel
  induction fuel with
  | zero => intro r bi red; simp [encodeSpreadGo]
  | succ n ih =>
    intro r bi red
    by_cases hred : 4 ≤ red
    · simp [encodeSpreadGo, hred]
    · rcases hdraw : drawSpreads 15 r with ⟨vs, r'⟩
      by_cases hbit : L ≤ bi + 15
      · have he : encodeSpreadGo L (n + 1) r bi red
            = vs ++ encodeSpreadGo L n r' 0 (red + 1) := by
          simp [encodeSpreadGo, hred, hdraw, hbit]
        have hd : decodeSpreadGo (n + 1) r = vs ++ decodeSpreadGo n r' := by
          simp [decodeSpreadGo, hdraw]
        rw [he, hd, List.length_append, take_append_length]
        rw [← ih r' 0 (red + 1)]
      · have he : encodeSpreadGo L (n + 1) r bi red
            = vs ++ encodeSpreadGo L n r' (bi + 15) red := by
          simp [encodeSpreadGo, hred, hdraw, hbit]
        have hd : decodeSpreadGo (n + 1) r = vs ++ decodeSpreadGo n r' := by
          simp [decodeSpreadGo, hdraw]
        rw [he, hd, List.length_append, take_append_length]
        rw [← ih r' (bi + 15) red]

/-- A fold whose step preserves a measure preserves it globally. -/
lemma foldl_pres {α β : Type} (P : α → ℕ) (f : α → β → α)
    (hf : ∀ a b, P (f a b) = P a) :
    ∀ (bs : List β) (a : α), P (bs.foldl f a) = P a := by
  intro bs
  induction bs with
  | nil => intro a; rfl
  | cons b bs ih => intro a; rw [List.foldl_cons, ih, hf]

/-- The division loop only ever calls `List.set`, so it keeps the buffer at
its allocated size `data.length + nsym`. -/
lemma rsDivisionLoop_length (nsym : ℕ) (gen data : List ℕ) :
    (rsDivisionLoop nsym gen data).length = data.length + nsym := by
  unfold rsDivisionLoop
  refine (foldl_pres List.length _ ?_ _ _).trans ?_
  · intro a b
    dsimp only
    split
    · exact foldl_pres List.length _ (fun e j => by simp) _ _
    · rfl
  · simp

/-- The early-return branch of `decodeFromBits`: a failed magic check
yields the not-found verdict with the magic confidence and no message. -/
lemma decodeFromBits_not_found (extracted : List Bool) (conf : List ℚ)
    (h : magicConfOf extracted conf < 7 / 10) :
    decodeFromBits extracted conf =
      { found := false, confidence := magicConfOf extracted conf
        message := none } := by
  unfold decodeFromBits
  rw [if_pos h]

lemma drawSpreads_fst_length (n : ℕ) : ∀ r : JsRng, (drawSpreads n r).1.length = n := by
  induction n with
  | zero => intro r; rfl
  | succ n ih =>
    intro r
    simp only [drawSpreads]
    rcases hnext : r.next with ⟨v, r'⟩
    simp only [List.length_cons]
    rcases hd : drawSpreads n r' with ⟨vs, r''⟩
    have := ih r'
    rw [hd] at this
    simp only at this ⊢
    omega

lemma encodeSpreadGo_length_pos (L fuel : ℕ) (r : JsRng) (bi red : ℕ)
    (hf : 0 < fuel) (hred : red < 4) :
    0 < (encodeSpreadGo L fuel r bi red).length := by
  cases fuel with
  | zero => omega
  | succ n =>
    simp only [encodeSpreadGo, if_neg (by omega : ¬ 4 ≤ red)]
    rcases hd : drawSpreads 15 r with ⟨vs, r'⟩
    have hlen : vs.length = 15 := by
      have h15 := drawSpreads_fst_length 15 r
      rw [hd] at h15
      exact h15
    by_cases hbit : L ≤ bi + 15
    · simp [hbit, List.length_append, hlen]
    · simp [hbit, List.length_append, hlen]

/-! ## The claims -/

/-- Claim C2 (code bug): the LSB round trip fails.  For the 32-pixel
all-zero image and the message "hi" (code units 104, 105), `encode`
succeeds, but `decode` of the watermarked buffer returns the single code
unit 0xCAFE = 51966 — the re-read magic — instead of "hi", because the
message-reading loop reuses the already-advanced `bitIndex` and therefore
never skips the 48 header bits. -/
theorem stego_roundtrip_bug :
    (stegoEncode (List.replicate 128 0) [104, 105]).map stegoDecode
        = Except.ok (some [51966]) ∧
      ¬ (some [51966] = some [104, 105]) := by
  have henc : stegoEncode (List.replicate 128 0) [104, 105]
      = Except.ok (stegoWriteGo 0 (List.replicate 128 0)
          (pad16 0xCAFE ++ pad32 (stegoStringToBinary [104, 105]).length ++
            stegoStringToBinary [104, 105])) := by
    unfold stegoEncode
    dsimp only
    split
    · next hcap =>
        exfalso
        have hlen : (stegoStringToBinary [104, 105]).length = 32 := rfl
        rw [hlen] at hcap
        norm_num at hcap
        rw [show (⌈(80 : ℚ) / 3⌉ : ℤ) = 27 from Int.ceil_eq_iff.mpr (by norm_num)] at hcap
        norm_num at hcap
    · rfl
  rw [henc]
  have hdec : stegoDecode (stegoWriteGo 0 (List.replicate 128 0)
      (pad16 0xCAFE ++ pad32 (stegoStringToBinary [104, 105]).length ++
        stegoStringToBinary [104, 105])) = some [51966] := by decide
  constructor
  · show Except.ok (stegoDecode (stegoWriteGo 0 (List.replicate 128 0)
      (pad16 0xCAFE ++ pad32 (stegoStringToBinary [104, 105]).length ++
        stegoStringToBinary [104, 105]))) = Except.ok (some [51966])
    rw [hdec]
  · decide

/-- Claim C3: for every received buffer of length at least `nsym`,
`ReedSolomon.decode` returns exactly the first `length - nsym` bytes
unchanged — both branches of the syndrome test slice the same prefix, so
no error locating or correction ever happens. -/
theorem rsDecode_returns_uncorrected (nsym : ℕ) (data : List ℕ)
    (h : nsym ≤ data.length) :
    rsDecode nsym data = data.take (data.length - nsym) := by
  unfold rsDecode jsSliceTo
  simp only [ite_self]
  rw [if_neg (by omega : ¬ ((data.length : ℤ) - nsym < 0))]
  congr 1
  omega

/-- Witness for C3 at `nsym = 2`, `data = [1, 2, 3, 4]`. -/
theorem rsDecode_returns_uncorrected_w :
    2 ≤ ([1, 2, 3, 4] : List ℕ).length ∧
      rsDecode 2 [1, 2, 3, 4] =
        ([1, 2, 3, 4] : List ℕ).take (([1, 2, 3, 4] : List ℕ).length - 2) :=
  ⟨by decide, rsDecode_returns_uncorrected 2 [1, 2, 3, 4] (by decide)⟩

/-- Claim C4: encode and decode consume the seeded RNG in identical order
and count — the same freshly seeded generator runs the same full
Fisher–Yates shuffle, producing the same shuffled block sequence, and the
spread values encode then draws (one `next()` per embedded coefficient) are
an initial segment of the ones decode draws (one per extracted
coefficient), so the k-th spread value agrees on both sides. -/
theorem rng_sync (key msg : List ℕ) (width height k : ℕ)
    (hk : k < (encodeSpreads key msg width height).length) :
    encodeShuffledBlocks key width height = decodeShuffledBlocks key width height ∧
    encodeSpreads key msg width height =
      (decodeSpreads key width height).take
        (encodeSpreads key msg width height).length ∧
    (encodeSpreads key msg width height).getD k 0 =
      (decodeSpreads key width height).getD k 0 := by
  have hpre : encodeSpreads key msg width height =
      (decodeSpreads key width height).take
        (encodeSpreads key msg width height).length := by
    have hde : decodeShuffledBlocks key width height
        = encodeShuffledBlocks key width height := rfl
    rcases hsb : encodeShuffledBlocks key width height with ⟨blocks, rng1⟩
    simp only [encodeSpreads, decodeSpreads, hde, hsb]
    exact encodeSpreadGo_take _ _ _ _ _
  refine ⟨rfl, hpre, ?_⟩
  rw [hpre]
  exact getD_of_take _ _ _ _ hk

/-- Witness for C4: key "test", empty message, an 8×8 image, index 0. -/
theorem rng_sync_w :
    0 < (encodeSpreads [116, 101, 115, 116] [] 8 8).length ∧
      (encodeShuffledBlocks [116, 101, 115, 116] 8 8
          = decodeShuffledBlocks [116, 101, 115, 116] 8 8 ∧
        encodeSpreads [116, 101, 115, 116] [] 8 8 =
          (decodeSpreads [116, 101, 115, 116] 8 8).take
            (encodeSpreads [116, 101, 115, 116] [] 8 8).length ∧
        (encodeSpreads [116, 101, 115, 116] [] 8 8).getD 0 0 =
          (decodeSpreads [116, 101, 115, 116] 8 8).getD 0 0) := by
  have h0 : 0 < (encodeSpreads [116, 101, 115, 116] [] 8 8).length := by
    show 0 < (encodeSpreadGo (encodedBitsLen []) 1
      (rngInit [116, 101, 115, 116]) 0 0).length
    exact encodeSpreadGo_length_pos _ _ _ _ _ (by norm_num) (by norm_num)
  exact ⟨h0, rng_sync [116, 101, 115, 116] [] 8 8 0 h0⟩

/-- Claim C5: `ReedSolomon.encode` is systematic — the output is
`data ‖ parity`, of length `data.length + nsym`, with the first
`data.length` bytes equal to `data` verbatim (the final `encoded.set(data)`
restores them after the polynomial division by the generator built from
the product of the `(x - αⁱ)`). -/
theorem rsEncode_systematic (nsym : ℕ) (data : List ℕ) :
    rsEncode nsym data = data ++ rsParity nsym data ∧
    (rsEncode nsym data).length = data.length + nsym ∧
    (rsEncode nsym data).take data.length = data := by
  have hlen := rsDivisionLoop_length nsym (createGenerator nsym) data
  refine ⟨rfl, ?_, ?_⟩
  · unfold rsEncode jsTypedSet
    simp only [List.length_append, List.length_drop]
    omega
  · unfold rsEncode jsTypedSet
    simp

/-- Claim C6: every value `next()` returns lies in `[0, 1)`.  The stepped
seed is `(seed * 1103515245 + 12345) & 0x7FFFFFFF` computed in double
arithmetic; the sole pre-image of the all-ones state 0x7FFFFFFF under the
exact step is 230538014, whose product already exceeds `2^53` and is
rounded to an even value, so the all-ones state is unreachable and the
quotient `seed / 0x7FFFFFFF` is always strictly below 1 — for every state,
reachable or not. -/
theorem next_in_unit_interval (r : JsRng) :
    0 ≤ (JsRng.next r).1 ∧ (JsRng.next r).1 < 1 := by
  unfold JsRng.next
  dsimp only
  refine ⟨by positivity, ?_⟩
  rw [div_lt_one (by norm_num)]
  have h := nextSeed_le r.seed
  have h2 : nextSeed r.seed < 2147483647 := by omega
  exact_mod_cast h2

/-- Claim C7: whenever fewer than 70% of the first 16 voted bits match the
magic pattern, `decode` returns exactly
`{found: false, confidence: magicConfidence, message: null}`. -/
theorem decode_low_magic (extracted : List Bool) (conf : List ℚ)
    (h : magicConfOf extracted conf < 7 / 10) :
    decodeFromBits extracted conf =
      { found := false, confidence := magicConfOf extracted conf
        message := none } :=
  decodeFromBits_not_found extracted conf h

/-- Witness for C7: with no extracted bits the vote is empty and the magic
confidence is 0. -/
theorem decode_low_magic_w :
    magicConfOf [] [] < 7 / 10 ∧
      decodeFromBits [] [] =
        { found := false, confidence := magicConfOf [] [], message := none } :=
  ⟨by show ((0 : ℕ) : ℚ) / 16 < 7 / 10; norm_num,
    decode_low_magic [] [] (by show ((0 : ℕ) : ℚ) / 16 < 7 / 10; norm_num)⟩

/-- Claim C8: on an image smaller than one 8×8 block the block grid is
empty, so `decode` — for every DCT-coefficient oracle, i.e. every pixel
content — short-circuits to `{found: false, confidence: 0, message: null}`
instead of failing. -/
theorem decode_degenerate_not_found (coef : ℕ → ℕ → ℚ) (key : List ℕ)
    (width height : ℕ) (h : width < 8 ∨ height < 8) :
    decodeM coef key width height =
      { found := false, confidence := 0, message := none } := by
  have h0 : width / 8 * (height / 8) = 0 := by
    rcases h with h | h
    · rw [Nat.div_eq_of_lt h, Nat.zero_mul]
    · rw [Nat.div_eq_of_lt h, Nat.mul_zero]
  unfold decodeM
  dsimp only
  rw [h0]
  show decodeFromBits [] [] = { found := false, confidence := 0, message := none }
  have hm : magicConfOf [] [] = 0 := by
    show ((0 : ℕ) : ℚ) / 16 = 0
    norm_num
  rw [decodeFromBits_not_found [] [] (by rw [hm]; norm_num), hm]

/-- Witness for C8: a 4×4 image with the zero coefficient oracle. -/
theorem decode_degenerate_not_found_w :
    ((4 : ℕ) < 8 ∨ (4 : ℕ) < 8) ∧
      decodeM (fun _ _ => 0) [] 4 4 =
        { found := false, confidence := 0, message := none } :=
  ⟨Or.inl (by norm_num),
    decode_degenerate_not_found (fun _ _ => 0) [] 4 4 (Or.inl (by norm_num))⟩

/-- Claim C10: `ReedSolomon.decode` is total (its `Except` translation
always returns `ok`, as its body has no throw site), so the `catch`
fallback in `decode` is dead code and, whenever the magic check passes,
the returned message is always computed from the RS-stripped bytes. -/
theorem rsDecode_total_fallback_dead (extracted : List Bool) (conf : List ℚ)
    (h : ¬ magicConfOf extracted conf < 7 / 10) :
    (∀ n d, rsDecodeE n d = Except.ok (rsDecode n d)) ∧
    decodeFromBits extracted conf =
      { found := true, confidence := magicConfOf extracted conf
        message := bitsToString (bytesToBits (rsDecode
          (decodeNsym (bitsToBytes ((votedBitsOf extracted conf).drop 16)).length)
          (bitsToBytes ((votedBitsOf extracted conf).drop 16)))) } := by
  refine ⟨fun n d => rfl, ?_⟩
  unfold decodeFromBits
  rw [if_neg h]
  rfl

/-- Witness for C10: four aligned copies of the magic pattern with unit
confidences vote to the magic itself, and the RS path yields the
(here empty, hence `null`) message. -/
theorem rsDecode_total_fallback_dead_w :
    ¬ magicConfOf ((MAGIC ++ MAGIC ++ MAGIC ++ MAGIC).map (fun b => b == 1))
        (List.replicate 64 1) < 7 / 10 ∧
      ((∀ n d, rsDecodeE n d = Except.ok (rsDecode n d)) ∧
        decodeFromBits ((MAGIC ++ MAGIC ++ MAGIC ++ MAGIC).map (fun b => b == 1))
            (List.replicate 64 1) =
          { found := true
            confidence := magicConfOf
              ((MAGIC ++ MAGIC ++ MAGIC ++ MAGIC).map (fun b => b == 1))
              (List.replicate 64 1)
            message := bitsToString (bytesToBits (rsDecode
              (decodeNsym (bitsToBytes ((votedBitsOf
                ((MAGIC ++ MAGIC ++ MAGIC ++ MAGIC).map (fun b => b == 1))
                (List.replicate 64 1)).drop 16)).length)
              (bitsToBytes ((votedBitsOf
                ((MAGIC ++ MAGIC ++ MAGIC ++ MAGIC).map (fun b => b == 1))
                (List.replicate 64 1)).drop 16)))) }) :=
  by
  have hv : votedBitsOf ((MAGIC ++ MAGIC ++ MAGIC ++ MAGIC).map (fun b => b == 1))
      (List.replicate 64 1) = MAGIC := by
    norm_num [votedBitsOf, MAGIC, List.range_succ, List.getD]
  have hcap : ¬ magicConfOf ((MAGIC ++ MAGIC ++ MAGIC ++ MAGIC).map (fun b => b == 1))
      (List.replicate 64 1) < 7 / 10 := by
    intro hlt
    unfold magicConfOf at hlt
    rw [hv] at hlt
    have h16 : magicMatchOf MAGIC = 16 := rfl
    rw [h16] at hlt
    norm_num at hlt
  exact ⟨hcap, rsDecode_total_fallback_dead _ _ hcap⟩

end RealPic
